import Mathlib

/-!
Verification of the message pipeline of `learning_bot.py`.

Strings are modelled as `List Char` (Python `len` counts code points, which
matches `List.length` on the character list).  Each definition mirrors one
piece of the Python source:

* `splitPar` / `joinPar` — Python `str.split("\n\n")` and `"\n\n".join`.
* `segLoop` / `segment` — the paragraph-accumulation splitter inside
  `send_to_telegram` (lines 277-299), parameterised by `maxLen`
  (the source fixes `max_length = 4096`).
* `sendAll` / `send_to_telegram` / `runDeliverPersist` — the sequential send
  loop (lines 302-315) that raises on the first non-200 status, and the way
  `main` persists processed urls only after a fully successful send.
* `univNewlines` / `readLines` / `pyStrip` / `load_processed_urls` /
  `save_processed_urls` — the line-oriented processed-url log (lines 57-68),
  read in text mode: universal-newline translation first, then line
  splitting, then Python `str.strip()` over its full whitespace set.
* `collectLoop` / `collectArticles` — the per-run duplicate suppression and
  dedup filtering in `main` (lines 360-379).
* `fetchAllGroups` / `tryBlock` / `mainModel` — `main`'s try/except structure
  (lines 356-396) with collaborator outcomes passed in explicitly.
* `subHF` / `subSpanF` / `subLinks` / `translate` — the chain of regex
  substitutions converting markdown to Telegram HTML (lines 258-272),
  with Python `re.sub` semantics (leftmost match, lazy groups, `.` not
  matching a newline) implemented directly.
-/

namespace LearningBot

/-- The paragraph separator `"\n\n"`. -/
def sep : List Char := ['\n', '\n']

/-- Python `s.split("\n\n")`: leftmost maximal splitting on two consecutive
newline characters; always returns a non-empty list of segments, none of
which contains the separator. -/
def splitPar : List Char → List (List Char)
  | [] => [[]]
  | '\n' :: '\n' :: rest => [] :: splitPar rest
  | c :: rest =>
    match splitPar rest with
    | [] => [[c]]
    | p :: ps => (c :: p) :: ps

/-- Python `"\n\n".join(ps)`. -/
def joinPar : List (List Char) → List Char
  | [] => []
  | [p] => p
  | p :: q :: ps => p ++ sep ++ joinPar (q :: ps)

theorem splitPar_cons_eq (c : Char) (rest : List Char)
    (h : ∀ r, c = '\n' → rest = '\n' :: r → False) :
    splitPar (c :: rest) = (match splitPar rest with
      | [] => [[c]]
      | p :: ps => (c :: p) :: ps) := by
  rw [splitPar.eq_def]
  split
  · simp_all
  · rename_i heq
    injection heq with h1 h2
    exact (h _ h1 h2).elim
  · rename_i c' rest' _ heq
    injection heq with h1 h2
    subst h1; subst h2
    rfl

theorem splitPar_ne_nil (l : List Char) : splitPar l ≠ [] := by
  induction l using splitPar.induct with
  | case1 => simp [splitPar]
  | case2 rest ih => simp [splitPar]
  | case3 c rest h hnil ih => exact absurd hnil ih
  | case4 c rest h p ps heq ih =>
    rw [splitPar_cons_eq c rest h, heq]
    simp

theorem joinPar_cons_ne (x : List Char) (l : List (List Char)) (h : l ≠ []) :
    joinPar (x :: l) = x ++ sep ++ joinPar l := by
  cases l with
  | nil => exact absurd rfl h
  | cons y ys => rfl

theorem joinPar_cons_head (c : Char) (p : List Char) (ps : List (List Char)) :
    joinPar ((c :: p) :: ps) = c :: joinPar (p :: ps) := by
  cases ps with
  | nil => rfl
  | cons q qs => simp [joinPar, sep]

/-- Round trip: joining the segments of the split reproduces the input
(the Python invariant `"\n\n".join(s.split("\n\n")) == s`). -/
theorem joinPar_splitPar (l : List Char) : joinPar (splitPar l) = l := by
  induction l using splitPar.induct with
  | case1 => rfl
  | case2 rest ih =>
    rw [splitPar, joinPar_cons_ne _ _ (splitPar_ne_nil rest), ih]
    rfl
  | case3 c rest h hnil ih => exact absurd hnil (splitPar_ne_nil rest)
  | case4 c rest h p ps heq ih =>
    rw [splitPar_cons_eq c rest h, heq, joinPar_cons_head, ← heq, ih]

/-- The paragraph-accumulation loop of `send_to_telegram` (lines 288-296):
state is `(messages, current_message)`; each paragraph either extends the
current chunk (joined by the separator), starts the first chunk, or closes
the current chunk and starts a new one. -/
def segLoop (maxLen : Nat) (msgs : List (List Char)) (current : List Char) :
    List (List Char) → List (List Char) × List Char
  | [] => (msgs, current)
  | p :: ps =>
    if current.length + p.length + 2 ≤ maxLen then
      if current = [] then segLoop maxLen msgs p ps
      else segLoop maxLen msgs (current ++ sep ++ p) ps
    else segLoop maxLen (msgs ++ [current]) p ps

/-- The message segmenter of `send_to_telegram` (lines 277-299): a message
within the limit is sent whole, otherwise it is split at paragraph
boundaries by the greedy accumulation loop, and the last accumulated chunk
is appended only when non-empty. -/
def segment (text : List Char) (maxLen : Nat) : List (List Char) :=
  if text.length ≤ maxLen then [text]
  else
    let r := segLoop maxLen [] [] (splitPar text)
    if r.2 = [] then r.1 else r.1 ++ [r.2]

theorem segLoop_msgs_prefix (maxLen : Nat) :
    ∀ (ps msgs : List (List Char)) (current : List Char),
      ∃ t, (segLoop maxLen msgs current ps).1 = msgs ++ t := by
  intro ps
  induction ps with
  | nil => intro msgs current; exact ⟨[], by simp [segLoop]⟩
  | cons p ps ih =>
    intro msgs current
    rw [segLoop]
    by_cases hfit : current.length + p.length + 2 ≤ maxLen
    · rw [if_pos hfit]
      by_cases hcur : current = []
      · rw [if_pos hcur]; exact ih msgs p
      · rw [if_neg hcur]; exact ih msgs (current ++ sep ++ p)
    · rw [if_neg hfit]
      obtain ⟨t, ht⟩ := ih (msgs ++ [current]) p
      exact ⟨[current] ++ t, by rw [ht, List.append_assoc]⟩

theorem segLoop_chunk_bound (maxLen : Nat) (PS : List (List Char)) :
    ∀ (ps msgs : List (List Char)) (current : List Char),
      (∀ p ∈ ps, p ∈ PS) →
      (∀ m ∈ msgs, m.length ≤ maxLen ∨ m ∈ PS) →
      (current.length ≤ maxLen ∨ current ∈ PS) →
      (∀ m ∈ (segLoop maxLen msgs current ps).1, m.length ≤ maxLen ∨ m ∈ PS) ∧
      ((segLoop maxLen msgs current ps).2.length ≤ maxLen ∨
        (segLoop maxLen msgs current ps).2 ∈ PS) := by
  intro ps
  induction ps with
  | nil => intro msgs current _ hmsgs hcur; exact ⟨hmsgs, hcur⟩
  | cons p ps ih =>
    intro msgs current hps hmsgs hcur
    have hpPS : p ∈ PS := hps p (List.mem_cons_self p ps)
    have hps' : ∀ q ∈ ps, q ∈ PS := fun q hq => hps q (List.mem_cons_of_mem p hq)
    rw [segLoop]
    by_cases hfit : current.length + p.length + 2 ≤ maxLen
    · rw [if_pos hfit]
      by_cases hc : current = []
      · rw [if_pos hc]
        refine ih msgs p hps' hmsgs (Or.inl ?_)
        subst hc
        simp only [List.length_nil] at hfit
        omega
      · rw [if_neg hc]
        refine ih msgs (current ++ sep ++ p) hps' hmsgs (Or.inl ?_)
        simp only [List.length_append, sep, List.length_cons, List.length_nil]
        omega
    · rw [if_neg hfit]
      refine ih (msgs ++ [current]) p hps' ?_ (Or.inr hpPS)
      intro m hm
      rcases List.mem_append.mp hm with h | h
      · exact hmsgs m h
      · simp only [List.mem_singleton] at h
        subst h
        exact hcur

/-- Every chunk of every `segment` output is within the limit or is a single
(oversized) paragraph of the input. -/
theorem segment_chunk_bound (text : List Char) (maxLen : Nat) :
    ∀ c ∈ segment text maxLen, c.length ≤ maxLen ∨ c ∈ splitPar text := by
  intro c hc
  by_cases ht : text.length ≤ maxLen
  · simp only [segment, if_pos ht, List.mem_singleton] at hc
    subst hc
    exact Or.inl ht
  · simp only [segment, if_neg ht] at hc
    have H := segLoop_chunk_bound maxLen (splitPar text) (splitPar text) [] []
      (fun p hp => hp) (by simp) (Or.inl (by simp))
    by_cases h2 : (segLoop maxLen [] [] (splitPar text)).2 = []
    · rw [if_pos h2] at hc
      exact H.1 c hc
    · rw [if_neg h2] at hc
      rcases List.mem_append.mp hc with h | h
      · exact H.1 c h
      · simp only [List.mem_singleton] at h
        subst h
        exact H.2

/-- The concatenation `sep ++ p1 ++ sep ++ p2 ++ ...` of a tail of
paragraphs. -/
def tailJoin : List (List Char) → List Char
  | [] => []
  | p :: ps => sep ++ p ++ tailJoin ps

theorem joinPar_eq_head_tailJoin (p : List Char) (ps : List (List Char)) :
    joinPar (p :: ps) = p ++ tailJoin ps := by
  induction ps generalizing p with
  | nil => simp [joinPar, tailJoin]
  | cons q qs ih => simp [joinPar, tailJoin, ih q, List.append_assoc]

theorem joinPar_snoc (xs : List (List Char)) (h : xs ≠ []) (a : List Char) :
    joinPar (xs ++ [a]) = joinPar xs ++ sep ++ a := by
  induction xs with
  | nil => exact absurd rfl h
  | cons x xs ih =>
    cases xs with
    | nil => simp [joinPar]
    | cons y ys =>
      rw [List.cons_append, joinPar_cons_ne x ((y :: ys) ++ [a]) (by simp),
        ih (by simp), joinPar_cons_ne x (y :: ys) (by simp)]
      simp [List.append_assoc]

theorem joinPar_last_append (xs : List (List Char)) (a b : List Char) :
    joinPar (xs ++ [a ++ b]) = joinPar (xs ++ [a]) ++ b := by
  cases xs with
  | nil => simp [joinPar]
  | cons x xs =>
    rw [joinPar_snoc (x :: xs) (by simp) (a ++ b), joinPar_snoc (x :: xs) (by simp) a]
    simp [List.append_assoc]

theorem segLoop_join_inv (maxLen : Nat) :
    ∀ (ps msgs : List (List Char)) (current : List Char),
      current ≠ [] → (∀ p ∈ ps, p ≠ []) →
      (segLoop maxLen msgs current ps).2 ≠ [] ∧
      joinPar ((segLoop maxLen msgs current ps).1 ++ [(segLoop maxLen msgs current ps).2]) =
        joinPar (msgs ++ [current]) ++ tailJoin ps := by
  intro ps
  induction ps with
  | nil =>
    intro msgs current hcur _
    exact ⟨hcur, by simp [segLoop, tailJoin]⟩
  | cons p ps ih =>
    intro msgs current hcur hps
    have hp : p ≠ [] := hps p (List.mem_cons_self p ps)
    have hps' : ∀ q ∈ ps, q ≠ [] := fun q hq => hps q (List.mem_cons_of_mem p hq)
    rw [segLoop]
    by_cases hfit : current.length + p.length + 2 ≤ maxLen
    · rw [if_pos hfit, if_neg hcur]
      obtain ⟨h1, h2⟩ := ih msgs (current ++ sep ++ p) (by simp [hcur]) hps'
      refine ⟨h1, ?_⟩
      rw [h2, List.append_assoc current sep p, joinPar_last_append msgs current (sep ++ p)]
      simp [tailJoin, List.append_assoc]
    · rw [if_neg hfit]
      obtain ⟨h1, h2⟩ := ih (msgs ++ [current]) p hp hps'
      refine ⟨h1, ?_⟩
      rw [h2, joinPar_snoc (msgs ++ [current]) (by simp) p]
      simp [tailJoin, List.append_assoc]

/-- C2 (counterexample): the round-trip of the claim fails as stated.  For the
input `"abcdef"` with `maxLen = 5`, the accumulation loop flushes the still
empty `current_message`, so the output is `["", "abcdef"]`; joining with the
separator and re-splitting yields `["", "abcdef"]` instead of the original
paragraph sequence `["abcdef"]`. -/
theorem claim2_cex :
    splitPar (joinPar (segment ('a' :: 'b' :: 'c' :: 'd' :: 'e' :: 'f' :: []) 5)) ≠
      splitPar ('a' :: 'b' :: 'c' :: 'd' :: 'e' :: 'f' :: []) := by
  decide

/-- C2 (amended): for every input string and `maxLen`, if every paragraph of
the input is non-empty and the first paragraph fits under the limit with its
separator allowance (`len(p1) + 2 ≤ maxLen`), then joining the chunks
returned by the segmenter with the double-newline separator and re-splitting
yields exactly the paragraph sequence of the original input.  (Without those
side conditions the loop can emit or coalesce spurious empty chunks, see the
counterexample.) -/
theorem claim2_round_trip (text : List Char) (maxLen : Nat)
    (hne : ∀ p ∈ splitPar text, p ≠ [])
    (hfit : ((splitPar text).headD []).length + 2 ≤ maxLen) :
    splitPar (joinPar (segment text maxLen)) = splitPar text := by
  by_cases ht : text.length ≤ maxLen
  · simp [segment, if_pos ht, joinPar]
  · simp only [segment, if_neg ht]
    obtain ⟨p1, rest, heq⟩ : ∃ p1 rest, splitPar text = p1 :: rest := by
      cases h : splitPar text with
      | nil => exact absurd h (splitPar_ne_nil text)
      | cons a as => exact ⟨a, as, rfl⟩
    rw [heq] at hfit
    simp only [List.headD] at hfit
    have hp1 : p1 ≠ [] := hne p1 (by rw [heq]; exact List.mem_cons_self p1 rest)
    have hrest : ∀ q ∈ rest, q ≠ [] := fun q hq =>
      hne q (by rw [heq]; exact List.mem_cons_of_mem p1 hq)
    have hstep : segLoop maxLen [] [] (p1 :: rest) = segLoop maxLen [] p1 rest := by
      rw [segLoop, if_pos (show ([] : List Char).length + p1.length + 2 ≤ maxLen by
        simpa using hfit), if_pos rfl]
    rw [heq, hstep]
    obtain ⟨h1, h2⟩ := segLoop_join_inv maxLen rest [] p1 hp1 hrest
    rw [if_neg h1, h2]
    have hjp : joinPar ([] ++ [p1]) = p1 := by simp [joinPar]
    rw [hjp, ← joinPar_eq_head_tailJoin, ← heq, joinPar_splitPar, heq]

/-- C2 (witness): a concrete long input with non-empty paragraphs whose first
paragraph fits: `"ab\n\ncdefgh"` with `maxLen = 5` round-trips. -/
theorem claim2_witness :
    (∀ p ∈ splitPar ('a' :: 'b' :: '\n' :: '\n' :: 'c' :: 'd' :: 'e' :: 'f' :: 'g' :: 'h' :: []),
      p ≠ []) ∧
    splitPar (joinPar
        (segment ('a' :: 'b' :: '\n' :: '\n' :: 'c' :: 'd' :: 'e' :: 'f' :: 'g' :: 'h' :: []) 5)) =
      splitPar ('a' :: 'b' :: '\n' :: '\n' :: 'c' :: 'd' :: 'e' :: 'f' :: 'g' :: 'h' :: []) :=
  ⟨by decide, claim2_round_trip _ 5 (by decide) (by decide)⟩

/-- C3: for every input string and `maxLen`, every chunk in the segmenter's
output has length at most `maxLen`, except a chunk that is a single paragraph
of the input whose own length exceeds `maxLen` (emitted unsplit). -/
theorem claim3_chunk_bound (text : List Char) (maxLen : Nat) :
    ∀ c ∈ segment text maxLen,
      c.length ≤ maxLen ∨ (c ∈ splitPar text ∧ maxLen < c.length) := by
  intro c hc
  rcases segment_chunk_bound text maxLen c hc with h | h
  · exact Or.inl h
  · by_cases hlen : c.length ≤ maxLen
    · exact Or.inl hlen
    · exact Or.inr ⟨h, Nat.lt_of_not_le hlen⟩

/-- C3 (witness): for `"abcdefgh\n\nxy"` with `maxLen = 5`, the oversized
paragraph `"abcdefgh"` is a chunk of the output and is classified as a single
oversized paragraph. -/
theorem claim3_witness :
    ('a' :: 'b' :: 'c' :: 'd' :: 'e' :: 'f' :: 'g' :: 'h' :: []) ∈
      segment ('a' :: 'b' :: 'c' :: 'd' :: 'e' :: 'f' :: 'g' :: 'h' :: '\n' :: '\n' :: 'x' :: 'y' :: []) 5 ∧
    (('a' :: 'b' :: 'c' :: 'd' :: 'e' :: 'f' :: 'g' :: 'h' :: []).length ≤ 5 ∨
      (('a' :: 'b' :: 'c' :: 'd' :: 'e' :: 'f' :: 'g' :: 'h' :: []) ∈
          splitPar ('a' :: 'b' :: 'c' :: 'd' :: 'e' :: 'f' :: 'g' :: 'h' :: '\n' :: '\n' :: 'x' :: 'y' :: []) ∧
        5 < ('a' :: 'b' :: 'c' :: 'd' :: 'e' :: 'f' :: 'g' :: 'h' :: []).length)) :=
  ⟨by decide, claim3_chunk_bound _ 5 _ (by decide)⟩

/-- C6: an input whose length is within the limit is returned as a single
chunk, unchanged (`send_to_telegram` lines 280-281). -/
theorem claim6_single_chunk (text : List Char) (maxLen : Nat)
    (h : text.length ≤ maxLen) : segment text maxLen = [text] := by
  simp [segment, if_pos h]

/-- C6 (witness): `segment "ab" 5 = ["ab"]`. -/
theorem claim6_witness :
    ('a' :: 'b' :: []).length ≤ 5 ∧ segment ('a' :: 'b' :: []) 5 = [('a' :: 'b' :: [])] :=
  ⟨by decide, claim6_single_chunk _ 5 (by decide)⟩

/-- C10: for every input longer than `maxLen` whose first paragraph `p1`
satisfies `len(p1) + 2 > maxLen`, the segmenter's output begins with an empty
chunk: the first loop iteration flushes the still-empty `current_message`. -/
theorem claim10_empty_first_chunk (text : List Char) (maxLen : Nat)
    (h1 : maxLen < text.length)
    (h2 : maxLen < ((splitPar text).headD []).length + 2) :
    (segment text maxLen).head? = some [] := by
  have ht : ¬ text.length ≤ maxLen := Nat.not_le_of_lt h1
  simp only [segment, if_neg ht]
  obtain ⟨p1, rest, heq⟩ : ∃ p1 rest, splitPar text = p1 :: rest := by
    cases h : splitPar text with
    | nil => exact absurd h (splitPar_ne_nil text)
    | cons a as => exact ⟨a, as, rfl⟩
  rw [heq] at h2
  simp only [List.headD] at h2
  have hstep : segLoop maxLen [] [] (p1 :: rest) = segLoop maxLen [[]] p1 rest := by
    rw [segLoop, if_neg (show ¬ ([] : List Char).length + p1.length + 2 ≤ maxLen by
      simp only [List.length_nil]
      omega)]
    rfl
  rw [heq, hstep]
  obtain ⟨t, hpre⟩ := segLoop_msgs_prefix maxLen rest [[]] p1
  by_cases hlast : (segLoop maxLen [[]] p1 rest).2 = []
  · rw [if_pos hlast, hpre]; rfl
  · rw [if_neg hlast, hpre]; rfl

/-- C10 (witness): the spurious empty chunk appears even for a first
paragraph of length `maxLen - 1`: input `"abcd\n\nxx"` with `maxLen = 5`
(first paragraph length 4) yields a leading empty chunk. -/
theorem claim10_witness :
    (segment ('a' :: 'b' :: 'c' :: 'd' :: '\n' :: '\n' :: 'x' :: 'x' :: []) 5).head? = some [] :=
  claim10_empty_first_chunk _ 5 (by decide) (by decide)

/-- The send loop of `send_to_telegram` (lines 302-315): chunks are posted in
order; `status i` is the HTTP status the transport returns for chunk `i`.
The loop records the indices attempted and, mirroring
`raise Exception(...)` on a non-200 response, stops with `Except.error i`
at the first failing chunk. -/
def sendAll (status : Nat → Nat) : Nat → List (List Char) → List Nat × Except Nat Unit
  | _, [] => ([], Except.ok ())
  | i, _ :: ms =>
    if status i = 200 then
      let r := sendAll status (i + 1) ms
      (i :: r.1, r.2)
    else ([i], Except.error i)

/-- `send_to_telegram`'s delivery of an ordered chunk sequence: the pair of
attempted chunk indices and the outcome (`Except.error i` models the raised
exception for chunk `i`). -/
def send_to_telegram (status : Nat → Nat) (messages : List (List Char)) :
    List Nat × Except Nat Unit :=
  sendAll status 0 messages

/-- Python `str.isspace` for a single character — exactly the characters
`str.strip()` removes: code points 0x09-0x0D, 0x1C-0x1F, 0x20, 0x85 (NEL),
0xA0 (NBSP), 0x1680, 0x2000-0x200A, 0x2028, 0x2029, 0x202F, 0x205F and
0x3000. -/
def isPySpace (c : Char) : Bool :=
  decide ((0x09 ≤ c.toNat ∧ c.toNat ≤ 0x0d) ∨ (0x1c ≤ c.toNat ∧ c.toNat ≤ 0x1f) ∨
    c.toNat = 0x20 ∨ c.toNat = 0x85 ∨ c.toNat = 0xa0 ∨ c.toNat = 0x1680 ∨
    (0x2000 ≤ c.toNat ∧ c.toNat ≤ 0x200a) ∨ c.toNat = 0x2028 ∨ c.toNat = 0x2029 ∨
    c.toNat = 0x202f ∨ c.toNat = 0x205f ∨ c.toNat = 0x3000)

/-- Python `s.strip()`. -/
def pyStrip (s : List Char) : List Char :=
  ((s.dropWhile isPySpace).reverse.dropWhile isPySpace).reverse

/-- The universal-newline translation performed when the log is read back
in text mode: `\r\n` and a lone `\r` are line breaks and are both read as
`\n`.  The flag records that the previous character was a `\r` (whose `\n`
has already been emitted), so a directly following `\n` is skipped. -/
def univAux : Bool → List Char → List Char
  | _, [] => []
  | prev, c :: rest =>
    if c = '\r' then '\n' :: univAux true rest
    else if prev ∧ c = '\n' then univAux false rest
    else c :: univAux false rest

def univNewlines (s : List Char) : List Char := univAux false s

/-- Python `f.readlines()` on already newline-translated text: split after
each newline character, keeping the newline; a final piece without a newline
is kept as a last line. -/
def readLines : List Char → List (List Char)
  | [] => []
  | c :: rest =>
    if c = '\n' then [c] :: readLines rest
    else
      match readLines rest with
      | [] => [[c]]
      | l :: ls => (c :: l) :: ls

/-- `load_processed_urls` (lines 57-62): the set of stripped lines of the
log file as read back in text mode (universal newlines), modelled as a list
whose membership is the set membership. -/
def load_processed_urls (file : List Char) : List (List Char) :=
  (readLines (univNewlines file)).map pyStrip

/-- `save_processed_urls` (lines 65-68): append `url + "\n"` for each url to
the log file.  (Text-mode writing maps `\n` to `os.linesep`, which is the
identity on the POSIX hosts this job runs on, so the write is plain
concatenation.) -/
def save_processed_urls (file : List Char) (urls : List (List Char)) : List Char :=
  file ++ (urls.map (fun u => u ++ ['\n'])).foldr (· ++ ·) []

/-- The tail of `main` (lines 385-387): urls are persisted only when
`send_to_telegram` returns without raising; an exception jumps to the
handler and skips `save_processed_urls`. -/
def runDeliverPersist (status : Nat → Nat) (messages : List (List Char))
    (urls : List (List Char)) (file : List Char) : List Char :=
  match (send_to_telegram status messages).2 with
  | Except.ok _ => save_processed_urls file urls
  | Except.error _ => file

/-- C1 (counterexample): with three chunks and a simulated non-200 response
for chunk 1, delivery raises (`Except.error 1`), chunk 2 is never attempted,
and the processed urls are not persisted (the log file is unchanged) —
contradicting per-chunk failure isolation and post-run persistence. -/
theorem claim1_cex :
    (send_to_telegram (fun i => if i = 1 then 500 else 200)
        (['a'] :: ['b'] :: ['c'] :: [])).1 ≠ [0, 1, 2] ∧
    (send_to_telegram (fun i => if i = 1 then 500 else 200)
        (['a'] :: ['b'] :: ['c'] :: [])).2 = Except.error 1 ∧
    runDeliverPersist (fun i => if i = 1 then 500 else 200)
        (['a'] :: ['b'] :: ['c'] :: []) [['u']] ['x', '\n'] = ['x', '\n'] :=
  ⟨by decide, by rfl, by rfl⟩

theorem sendAll_first_failure (status : Nat → Nat) :
    ∀ (msgs : List (List Char)) (k j : Nat), j < msgs.length →
      ¬ status (k + j) = 200 → (∀ i, i < j → status (k + i) = 200) →
      (sendAll status k msgs).1 = List.range' k (j + 1) ∧
      (sendAll status k msgs).2 = Except.error (k + j) := by
  intro msgs
  induction msgs with
  | nil => intro k j hj _ _; exact absurd hj (by simp)
  | cons m ms ih =>
    intro k j hj hfail hok
    cases j with
    | zero =>
      rw [sendAll, if_neg (by simpa using hfail)]
      simp [List.range']
    | succ j' =>
      have hk : status k = 200 := by
        have := hok 0 (Nat.succ_pos j')
        simpa using this
      rw [sendAll, if_pos hk]
      have hj' : j' < ms.length := by
        simp only [List.length_cons] at hj
        omega
      have hfail' : ¬ status (k + 1 + j') = 200 := by
        have : k + 1 + j' = k + (j' + 1) := by omega
        rw [this]; exact hfail
      have hok' : ∀ i, i < j' → status (k + 1 + i) = 200 := by
        intro i hi
        have : k + 1 + i = k + (i + 1) := by omega
        rw [this]; exact hok (i + 1) (by omega)
      obtain ⟨h1, h2⟩ := ih (k + 1) j' hj' hfail' hok'
      constructor
      · simp only [h1, List.range']
      · simp only [h2]
        congr 1
        omega

/-- C1 (amended): when the send of chunk `j` receives the first non-success
response, `send_to_telegram` attempts exactly chunks `0..j`, raises for chunk
`j` (so delivery does not continue with the remaining chunks), and `main`
does not persist the processed ids for that run: the log file is left
unchanged. -/
theorem claim1_raise_aborts (status : Nat → Nat) (msgs : List (List Char))
    (j : Nat) (urls : List (List Char)) (file : List Char)
    (hj : j < msgs.length) (hfail : ¬ status j = 200)
    (hok : ∀ i, i < j → status i = 200) :
    (send_to_telegram status msgs).1 = List.range' 0 (j + 1) ∧
    (send_to_telegram status msgs).2 = Except.error j ∧
    runDeliverPersist status msgs urls file = file := by
  have H := sendAll_first_failure status msgs 0 j hj
    (by simpa using hfail) (fun i hi => by simpa using hok i hi)
  have h2 : (send_to_telegram status msgs).2 = Except.error j := by
    simpa [send_to_telegram] using H.2
  refine ⟨H.1, h2, ?_⟩
  unfold runDeliverPersist
  rw [h2]

/-- C1 (witness): concrete instance of the amended claim with a failing
second chunk. -/
theorem claim1_witness :
    (send_to_telegram (fun i => if i = 1 then 500 else 200)
        (['a'] :: ['b'] :: ['c'] :: [])).1 = List.range' 0 2 ∧
    (send_to_telegram (fun i => if i = 1 then 500 else 200)
        (['a'] :: ['b'] :: ['c'] :: [])).2 = Except.error 1 ∧
    runDeliverPersist (fun i => if i = 1 then 500 else 200)
        (['a'] :: ['b'] :: ['c'] :: []) [['u']] ['y', '\n'] = ['y', '\n'] :=
  claim1_raise_aborts _ _ 1 _ _ (by decide) (by decide) (by decide)

/-- A well-formed log file: empty, or ending with a newline — the shape every
file produced by `save_processed_urls` has. -/
def WFLog (file : List Char) : Prop :=
  file = [] ∨ file.getLast? = some '\n'

theorem readLines_ne_nil (l : List Char) (h : l ≠ []) : readLines l ≠ [] := by
  cases l with
  | nil => exact absurd rfl h
  | cons c rest =>
    rw [readLines]
    by_cases hc : c = '\n'
    · simp [hc]
    · rw [if_neg hc]
      cases h' : readLines rest <;> simp

theorem readLines_append :
    ∀ (f : List Char), WFLog f → ∀ g, readLines (f ++ g) = readLines f ++ readLines g := by
  intro f
  induction f with
  | nil => intro _ g; simp [readLines]
  | cons c rest ih =>
    intro hf g
    rcases hf with h0 | hlast
    · exact absurd h0 (by simp)
    · cases rest with
      | nil =>
        have hc : c = '\n' := by simpa using hlast
        subst hc
        simp [readLines]
      | cons b bs =>
        rw [List.getLast?_cons_cons] at hlast
        have hwf : WFLog (b :: bs) := Or.inr hlast
        by_cases hc : c = '\n'
        · rw [List.cons_append, readLines, if_pos hc, ih hwf g]
          conv_rhs => rw [readLines, if_pos hc]
          simp
        · rw [List.cons_append, readLines, if_neg hc, ih hwf g]
          have hne := readLines_ne_nil (b :: bs) (by simp)
          cases hr : readLines (b :: bs) with
          | nil => exact absurd hr hne
          | cons l ls =>
            conv_rhs => rw [readLines, if_neg hc, hr]
            simp

theorem readLines_line (id : List Char) (h : '\n' ∉ id) :
    ∀ g, readLines (id ++ '\n' :: g) = (id ++ ['\n']) :: readLines g := by
  induction id with
  | nil => intro g; simp [readLines]
  | cons c cs ih =>
    intro g
    have hc : ¬ c = '\n' := fun hh => h (hh ▸ List.mem_cons_self c cs)
    have hcs : '\n' ∉ cs := fun hh => h (List.mem_cons_of_mem c hh)
    rw [List.cons_append, readLines, if_neg hc, ih hcs g]
    simp

theorem readLines_log (ids : List (List Char)) (h : ∀ id ∈ ids, '\n' ∉ id) :
    readLines ((ids.map (fun u => u ++ ['\n'])).foldr (· ++ ·) []) =
      ids.map (fun u => u ++ ['\n']) := by
  induction ids with
  | nil => simp [readLines]
  | cons id ids ih =>
    simp only [List.map_cons, List.foldr_cons]
    rw [List.append_assoc, List.singleton_append,
      readLines_line id (h id (List.mem_cons_self id ids)),
      ih (fun u hu => h u (List.mem_cons_of_mem id hu))]

theorem pyStrip_append_newline (id : List Char) :
    pyStrip (id ++ ['\n']) = pyStrip id := by
  unfold pyStrip
  rw [List.dropWhile_append]
  by_cases h : (id.dropWhile isPySpace).isEmpty
  · rw [if_pos h]
    have h0 : id.dropWhile isPySpace = [] := by simpa [List.isEmpty_iff] using h
    rw [h0]
    simp [List.dropWhile, isPySpace]
  · rw [if_neg h]
    rw [List.reverse_append]
    simp only [List.reverse_singleton, List.singleton_append]
    rw [List.dropWhile_cons_of_pos (by simp [isPySpace])]

theorem univAux_false_ne_nil (l : List Char) (h : l ≠ []) : univAux false l ≠ [] := by
  cases l with
  | nil => exact absurd rfl h
  | cons c rest =>
    rw [univAux]
    by_cases hc : c = '\r'
    · rw [if_pos hc]
      simp
    · rw [if_neg hc, if_neg (by simp)]
      simp

theorem getLast?_cons_ne (c : Char) (l : List Char) (h : l ≠ []) :
    (c :: l).getLast? = l.getLast? := by
  cases l with
  | nil => exact absurd rfl h
  | cons d ds => exact List.getLast?_cons_cons

theorem univAux_append :
    ∀ (f : List Char), f.getLast? = some '\n' → ∀ (prev : Bool) (g : List Char),
      univAux prev (f ++ g) = univAux prev f ++ univAux false g := by
  intro f
  induction f with
  | nil => intro h; exact absurd h (by simp)
  | cons c rest ih =>
    intro h prev g
    cases rest with
    | nil =>
      have hc : c = '\n' := by simpa using h
      subst hc
      cases prev with
      | true =>
        rw [List.cons_append, List.nil_append, univAux, if_neg (by decide),
          if_pos (by simp)]
        rw [show univAux true ['\n'] = [] from by
          rw [univAux, if_neg (by decide), if_pos (by simp)]
          rfl]
        rfl
      | false =>
        rw [List.cons_append, List.nil_append, univAux, if_neg (by decide),
          if_neg (by simp)]
        rw [show univAux false ['\n'] = ['\n'] from by
          rw [univAux, if_neg (by decide), if_neg (by simp)]
          rfl]
        rfl
    | cons d ds =>
      have hlast : (d :: ds).getLast? = some '\n' := by
        rwa [List.getLast?_cons_cons] at h
      rw [List.cons_append, univAux]
      conv_rhs => rw [univAux]
      by_cases hc : c = '\r'
      · rw [if_pos hc, if_pos hc, ih hlast true g]
        rfl
      · rw [if_neg hc, if_neg hc]
        by_cases hpn : prev = true ∧ c = '\n'
        · rw [if_pos hpn, if_pos hpn, ih hlast false g]
        · rw [if_neg hpn, if_neg hpn, ih hlast false g]
          rfl

theorem univAux_id : ∀ (l : List Char), '\r' ∉ l → univAux false l = l := by
  intro l
  induction l with
  | nil => intro _; rfl
  | cons c rest ih =>
    intro h
    have hc : ¬ c = '\r' := fun hh => h (hh ▸ List.mem_cons_self c rest)
    rw [univAux, if_neg hc, if_neg (by simp),
      ih (fun hh => h (List.mem_cons_of_mem c hh))]

theorem univAux_wf :
    ∀ (l : List Char) (prev : Bool), l.getLast? = some '\n' → WFLog (univAux prev l) := by
  intro l
  induction l with
  | nil => intro prev h; exact absurd h (by simp)
  | cons c rest ih =>
    intro prev h
    cases rest with
    | nil =>
      have hc : c = '\n' := by simpa using h
      subst hc
      cases prev with
      | true =>
        left
        rw [univAux, if_neg (by decide), if_pos (by simp)]
        rfl
      | false =>
        right
        rw [univAux, if_neg (by decide), if_neg (by simp)]
        rfl
    | cons d ds =>
      have hlast : (d :: ds).getLast? = some '\n' := by
        rwa [List.getLast?_cons_cons] at h
      by_cases hc : c = '\r'
      · rw [univAux, if_pos hc]
        rcases ih true hlast with h0 | h1
        · right
          rw [h0]
          rfl
        · have hne : univAux true (d :: ds) ≠ [] := by
            intro h2
            rw [h2] at h1
            exact absurd h1 (by simp)
          right
          rw [getLast?_cons_ne _ _ hne]
          exact h1
      · rw [univAux, if_neg hc]
        by_cases hpn : prev = true ∧ c = '\n'
        · rw [if_pos hpn]
          exact ih false hlast
        · rw [if_neg hpn]
          rcases ih false hlast with h0 | h1
          · exact absurd h0 (univAux_false_ne_nil (d :: ds) (by simp))
          · have hne : univAux false (d :: ds) ≠ [] := univAux_false_ne_nil (d :: ds) (by simp)
            right
            rw [getLast?_cons_ne _ _ hne]
            exact h1

theorem univNewlines_wf (file : List Char) (h : WFLog file) :
    WFLog (univNewlines file) := by
  rcases h with h0 | h1
  · subst h0
    left
    rfl
  · exact univAux_wf file false h1

theorem cr_not_mem_log (ids : List (List Char)) (h : ∀ id ∈ ids, '\r' ∉ id) :
    '\r' ∉ (ids.map (fun u => u ++ ['\n'])).foldr (· ++ ·) [] := by
  induction ids with
  | nil => simp
  | cons id rest ih =>
    simp only [List.map_cons, List.foldr_cons]
    intro hmem
    rcases List.mem_append.mp hmem with hmem1 | hmem2
    · rcases List.mem_append.mp hmem1 with ha | hb
      · exact h id (List.mem_cons_self id rest) ha
      · simp at hb
    · exact ih (fun u hu => h u (List.mem_cons_of_mem id hu)) hmem2

/-- C7 (counterexample): the claim fails as stated for an id carrying
whitespace: after appending the id `" u"`, a fresh load strips the line to
`"u"`, so the store does not contain the appended id `" u"`. -/
theorem claim7_cex :
    (' ' :: 'u' :: []) ∉
      load_processed_urls (save_processed_urls [] [(' ' :: 'u' :: [])]) := by
  decide

/-- C7 (amended): for every well-formed prior log (empty or
newline-terminated, as produced by saves) and every sequence of ids that are
unchanged by whitespace-stripping and contain no newline and no carriage
return (which text-mode reading would treat as a line break), membership in
the freshly reloaded store after `save_processed_urls` is exactly membership
in the prior store or in the appended ids: every appended id is contained,
an id never appended and absent before is not contained, and re-appending an
already-present id leaves membership unchanged even though the log keeps
duplicate lines (loading deduplicates by membership). -/
theorem claim7_membership (file : List Char) (ids : List (List Char)) (v : List Char)
    (hwf : WFLog file)
    (hids : ∀ id ∈ ids, pyStrip id = id ∧ '\n' ∉ id ∧ '\r' ∉ id) :
    (v ∈ load_processed_urls (save_processed_urls file ids) ↔
      v ∈ load_processed_urls file ∨ v ∈ ids) := by
  unfold load_processed_urls save_processed_urls
  have hlog : univAux false ((ids.map (fun u => u ++ ['\n'])).foldr (· ++ ·) []) =
      (ids.map (fun u => u ++ ['\n'])).foldr (· ++ ·) [] :=
    univAux_id _ (cr_not_mem_log ids (fun id hid => (hids id hid).2.2))
  have hsplit : univNewlines (file ++ (ids.map (fun u => u ++ ['\n'])).foldr (· ++ ·) []) =
      univNewlines file ++ (ids.map (fun u => u ++ ['\n'])).foldr (· ++ ·) [] := by
    rcases hwf with h0 | h1
    · subst h0
      rw [List.nil_append]
      show univAux false _ = univAux false [] ++ _
      rw [hlog]
      rfl
    · show univAux false _ = univAux false file ++ _
      rw [univAux_append file h1 false _, hlog]
  rw [hsplit, readLines_append (univNewlines file) (univNewlines_wf file hwf) _,
    List.map_append, readLines_log ids (fun id hid => (hids id hid).2.1), List.map_map]
  have hmap : (ids.map (pyStrip ∘ fun u => u ++ ['\n'])) = ids := by
    have h1 : (ids.map (pyStrip ∘ fun u => u ++ ['\n'])) = ids.map (fun u => u) :=
      List.map_congr_left (fun id hid => by
        simp only [Function.comp_apply, pyStrip_append_newline]
        exact (hids id hid).1)
    rw [h1, List.map_id']
  rw [hmap, List.mem_append]

/-- C7 (witness): starting from the log `"a\n"`, appending `["u1", "u2"]` and
reloading contains `"u1"`. -/
theorem claim7_witness :
    (('u' :: '1' :: []) ∈
        load_processed_urls (save_processed_urls ('a' :: '\n' :: [])
          [('u' :: '1' :: []), ('u' :: '2' :: [])]) ↔
      ('u' :: '1' :: []) ∈ load_processed_urls ('a' :: '\n' :: []) ∨
        ('u' :: '1' :: []) ∈ [('u' :: '1' :: []), ('u' :: '2' :: [])]) :=
  claim7_membership _ _ _ (Or.inr (by decide)) (by decide)

/-- `MAX_ARTICLES` (line 16). -/
def MAX_ARTICLES : Nat := 30

/-- The per-article filter of `main` (lines 366-370): an article contributes
its url when the url is present and truthy (non-empty), not yet seen this
run, and not in the loaded processed set.  State is `(seen_urls,
all_articles)`. -/
def collectLoop (processed : List (List Char)) :
    List (Option (List Char)) → List (List Char) → List (List Char) →
      List (List Char) × List (List Char)
  | [], seen, acc => (seen, acc)
  | a :: rest, seen, acc =>
    match a with
    | none => collectLoop processed rest seen acc
    | some u =>
      if u ≠ [] ∧ u ∉ seen ∧ u ∉ processed then
        collectLoop processed rest (u :: seen) (acc ++ [u])
      else collectLoop processed rest seen acc

/-- The outer loop of `main` over keyword groups (lines 364-370). -/
def collectGroups (processed : List (List Char)) :
    List (List (Option (List Char))) → List (List Char) → List (List Char) →
      List (List Char) × List (List Char)
  | [], seen, acc => (seen, acc)
  | g :: gs, seen, acc =>
    let r := collectLoop processed g seen acc
    collectGroups processed gs r.1 r.2

/-- All article urls collected in a run, before the cap (line 379). -/
def collectArticles (processed : List (List Char))
    (groups : List (List (Option (List Char)))) : List (List Char) :=
  (collectGroups processed groups [] []).2

/-- The article list handed to `analyze_with_gemini` (lines 379-381):
collected urls capped to `MAX_ARTICLES`. -/
def articlesForGeneration (processed : List (List Char))
    (groups : List (List (Option (List Char)))) : List (List Char) :=
  (collectArticles processed groups).take MAX_ARTICLES

theorem collectLoop_inv (processed : List (List Char)) :
    ∀ (arts : List (Option (List Char))) (seen acc : List (List Char)),
      acc.Nodup → (∀ u ∈ acc, u ∈ seen) → (∀ u ∈ acc, u ∉ processed) →
      ((collectLoop processed arts seen acc).2.Nodup ∧
       (∀ u ∈ (collectLoop processed arts seen acc).2,
          u ∈ (collectLoop processed arts seen acc).1) ∧
       (∀ u ∈ (collectLoop processed arts seen acc).2, u ∉ processed)) := by
  intro arts
  induction arts with
  | nil => intro seen acc h1 h2 h3; exact ⟨h1, h2, h3⟩
  | cons a rest ih =>
    intro seen acc h1 h2 h3
    match a with
    | none => exact ih seen acc h1 h2 h3
    | some u =>
      rw [collectLoop]
      by_cases hc : u ≠ [] ∧ u ∉ seen ∧ u ∉ processed
      · rw [if_pos hc]
        refine ih (u :: seen) (acc ++ [u]) ?_ ?_ ?_
        · rw [List.nodup_append]
          exact ⟨h1, List.nodup_singleton u,
            fun x hx hu => hc.2.1 ((List.mem_singleton.mp hu) ▸ h2 x hx)⟩
        · intro x hx
          rcases List.mem_append.mp hx with h | h
          · exact List.mem_cons_of_mem u (h2 x h)
          · rw [List.mem_singleton.mp h]
            exact List.mem_cons_self u seen
        · intro x hx
          rcases List.mem_append.mp hx with h | h
          · exact h3 x h
          · rw [List.mem_singleton.mp h]
            exact hc.2.2
      · rw [if_neg hc]
        exact ih seen acc h1 h2 h3

theorem collectGroups_inv (processed : List (List Char)) :
    ∀ (groups : List (List (Option (List Char)))) (seen acc : List (List Char)),
      acc.Nodup → (∀ u ∈ acc, u ∈ seen) → (∀ u ∈ acc, u ∉ processed) →
      ((collectGroups processed groups seen acc).2.Nodup ∧
       (∀ u ∈ (collectGroups processed groups seen acc).2, u ∉ processed)) := by
  intro groups
  induction groups with
  | nil => intro seen acc h1 _ h3; exact ⟨h1, h3⟩
  | cons g gs ih =>
    intro seen acc h1 h2 h3
    obtain ⟨k1, k2, k3⟩ := collectLoop_inv processed g seen acc h1 h2 h3
    exact ih (collectLoop processed g seen acc).1 (collectLoop processed g seen acc).2 k1 k2 k3

/-- C8: in every run, the article list passed to generation contains no url
from the loaded processed set, no duplicate url (intra-run `seen`
suppression), and at most `MAX_ARTICLES = 30` entries. -/
theorem claim8_generation_input (processed : List (List Char))
    (groups : List (List (Option (List Char)))) :
    (articlesForGeneration processed groups).Nodup ∧
    (∀ u ∈ articlesForGeneration processed groups, u ∉ processed) ∧
    (articlesForGeneration processed groups).length ≤ 30 := by
  obtain ⟨h1, h2⟩ := collectGroups_inv processed groups [] []
    List.nodup_nil (by simp) (by simp)
  refine ⟨?_, ?_, ?_⟩
  · exact h1.sublist (List.take_sublist MAX_ARTICLES _)
  · intro u hu
    exact h2 u (List.take_subset MAX_ARTICLES _ hu)
  · calc (articlesForGeneration processed groups).length
        ≤ MAX_ARTICLES := by
          simp [articlesForGeneration]
      _ = 30 := rfl

/-- C8 (witness): a concrete run with a duplicate url, an already-processed
url, and a missing url. -/
theorem claim8_witness :
    (('b' :: []) ∈ articlesForGeneration [('p' :: [])]
        [[some ('b' :: []), some ('p' :: []), none, some ('b' :: []), some ('c' :: [])]] →
      ('b' :: []) ∉ [('p' :: [])]) ∧
    (articlesForGeneration [('p' :: [])]
        [[some ('b' :: []), some ('p' :: []), none, some ('b' :: []), some ('c' :: [])]]).Nodup ∧
    (articlesForGeneration [('p' :: [])]
        [[some ('b' :: []), some ('p' :: []), none, some ('b' :: []), some ('c' :: [])]]).length ≤ 30 :=
  ⟨fun h => (claim8_generation_input _ _).2.1 _ h,
    (claim8_generation_input _ _).1, (claim8_generation_input _ _).2.2⟩

/-- Boolean substring test: `needle` occurs contiguously in `hay`. -/
def containsSub (needle hay : List Char) : Bool :=
  (List.range (hay.length + 1)).any (fun i => needle.isPrefixOf (hay.drop i))

theorem isPrefixOf_self (l : List Char) : l.isPrefixOf l = true := by
  induction l with
  | nil => rfl
  | cons c cs ih => simp [List.isPrefixOf, ih]

theorem containsSub_append_left (x e : List Char) : containsSub e (x ++ e) = true := by
  unfold containsSub
  rw [List.any_eq_true]
  refine ⟨x.length, List.mem_range.mpr ?_, ?_⟩
  · simp only [List.length_append]
    omega
  · rw [List.drop_left]
    exact isPrefixOf_self e

/-- Sequential fetching over keyword groups (lines 364-365): the first
`fetch_articles_by_keywords` failure propagates as a raised exception. -/
def fetchAllGroups :
    List (Except (List Char) (List (Option (List Char)))) →
      Except (List Char) (List (List (Option (List Char))))
  | [] => Except.ok []
  | r :: rs =>
    match r with
    | Except.error e => Except.error e
    | Except.ok g =>
      match fetchAllGroups rs with
      | Except.error e => Except.error e
      | Except.ok gs => Except.ok (g :: gs)

/-- The body of `main`'s try block (lines 358-388), with the collaborator
outcomes (per-group fetch results, generation, message sending) passed in
explicitly: fetch all groups, filter and cap the articles, return early when
none are new, generate the analysis, send it, and report the urls to
persist.  Any collaborator failure propagates as `Except.error`. -/
def tryBlock (processed : List (List Char))
    (fetchRes : List (Except (List Char) (List (Option (List Char)))))
    (gen : List (List Char) → Except (List Char) (List Char))
    (send : List Char → Except (List Char) Unit) :
    Except (List Char) (Option (List (List Char))) :=
  match fetchAllGroups fetchRes with
  | Except.error e => Except.error e
  | Except.ok groups =>
    if collectArticles processed groups = [] then Except.ok none
    else
      match gen (articlesForGeneration processed groups) with
      | Except.error e => Except.error e
      | Except.ok analysis =>
        match send ("🔍 AI & TECH NEWS MARKET ANALYSIS\n\n".data ++ analysis) with
        | Except.error e => Except.error e
        | Except.ok _ => Except.ok (some (articlesForGeneration processed groups))

/-- The text sent by `main`'s except branch (lines 391-394). -/
def errorNotification (e : List Char) : List Char :=
  "⚠️ NEWS ANALYSIS ERROR\n\n".data ++ ("❌ Error: ".data ++ e)

/-- Observable outcome of one run of `main`. -/
inductive MainOutcome where
  | noArticles : MainOutcome
  | completed (persisted : List (List Char)) : MainOutcome
  | failedNotified (msg : List Char) : MainOutcome
  | failedNotifySwallowed (msg : List Char) : MainOutcome

/-- `main` (lines 356-396): the try block, wrapped in the except handler
that sends a best-effort error notification and swallows a failure of that
notification.  The result type is `Except`: a raised-and-unhandled exception
would be `Except.error`. -/
def mainModel (processed : List (List Char))
    (fetchRes : List (Except (List Char) (List (Option (List Char)))))
    (gen : List (List Char) → Except (List Char) (List Char))
    (send : List Char → Except (List Char) Unit) :
    Except (List Char) MainOutcome :=
  match tryBlock processed fetchRes gen send with
  | Except.ok none => Except.ok MainOutcome.noArticles
  | Except.ok (some arts) => Except.ok (MainOutcome.completed arts)
  | Except.error e =>
    match send (errorNotification e) with
    | Except.ok _ => Except.ok (MainOutcome.failedNotified (errorNotification e))
    | Except.error _ => Except.ok (MainOutcome.failedNotifySwallowed (errorNotification e))

/-- C9: whenever the try block raises (search, generation or delivery
failing), `main` catches it and attempts one notification whose text
contains the error; whether that notification succeeds or itself fails, the
run ends in an `Except.ok` outcome — never an unhandled exception from the
error-reporting path. -/
theorem claim9_handler (processed : List (List Char))
    (fetchRes : List (Except (List Char) (List (Option (List Char)))))
    (gen : List (List Char) → Except (List Char) (List Char))
    (send : List Char → Except (List Char) Unit) (e : List Char)
    (h : tryBlock processed fetchRes gen send = Except.error e) :
    containsSub e (errorNotification e) = true ∧
    (mainModel processed fetchRes gen send =
        Except.ok (MainOutcome.failedNotified (errorNotification e)) ∨
      mainModel processed fetchRes gen send =
        Except.ok (MainOutcome.failedNotifySwallowed (errorNotification e))) := by
  constructor
  · unfold errorNotification
    rw [← List.append_assoc]
    exact containsSub_append_left _ e
  · have hred : mainModel processed fetchRes gen send =
        (match send (errorNotification e) with
          | Except.ok _ => Except.ok (MainOutcome.failedNotified (errorNotification e))
          | Except.error _ =>
            Except.ok (MainOutcome.failedNotifySwallowed (errorNotification e))) := by
      unfold mainModel
      rw [h]
    rw [hred]
    cases hs : send (errorNotification e) with
    | ok _ => exact Or.inl rfl
    | error _ => exact Or.inr rfl

/-- C9 (witness): a concrete run whose first fetch raises `"boom"`. -/
theorem claim9_witness :
    containsSub ('b' :: 'o' :: 'o' :: 'm' :: [])
        (errorNotification ('b' :: 'o' :: 'o' :: 'm' :: [])) = true ∧
    (mainModel [] [Except.error ('b' :: 'o' :: 'o' :: 'm' :: [])]
        (fun _ => Except.ok ['x']) (fun _ => Except.ok ()) =
        Except.ok (MainOutcome.failedNotified
          (errorNotification ('b' :: 'o' :: 'o' :: 'm' :: []))) ∨
      mainModel [] [Except.error ('b' :: 'o' :: 'o' :: 'm' :: [])]
        (fun _ => Except.ok ['x']) (fun _ => Except.ok ()) =
        Except.ok (MainOutcome.failedNotifySwallowed
          (errorNotification ('b' :: 'o' :: 'o' :: 'm' :: [])))) :=
  claim9_handler [] [Except.error ('b' :: 'o' :: 'o' :: 'm' :: [])]
    (fun _ => Except.ok ['x']) (fun _ => Except.ok ())
    ('b' :: 'o' :: 'o' :: 'm' :: []) rfl

/-- Lazy scan for a literal `close` token, as Python's non-greedy `(.*?)`
followed by `close`: at each position the close token is tried first, then
one non-newline character is consumed (`.` does not match a newline).
Returns the group and the remainder after `close`. -/
def findCloseLazy (close : List Char) : List Char → Option (List Char × List Char)
  | [] => none
  | c :: rest =>
    if close.isPrefixOf (c :: rest) then some ([], (c :: rest).drop close.length)
    else if c = '\n' then none
    else
      match findCloseLazy close rest with
      | none => none
      | some (g, r) => some (c :: g, r)

/-- One `re.sub` pass for a pattern `opn (.*?) close` with replacement
`pre \1 post`: scan left to right; at a position where `opn` matches and a
lazy close is found, emit the replacement and continue after the match,
otherwise emit one character and move on.  The `fuel` argument (always
instantiated with the input length, which bounds the number of steps since
every step consumes at least one character for non-empty `opn`) keeps the
recursion structural. -/
def subSpanF (opn close pre post : List Char) : Nat → List Char → List Char
  | 0, s => s
  | _ + 1, [] => []
  | fuel + 1, c :: rest =>
    if opn.isPrefixOf (c :: rest) then
      match findCloseLazy close ((c :: rest).drop opn.length) with
      | some (g, r) => pre ++ g ++ post ++ subSpanF opn close pre post fuel r
      | none => c :: subSpanF opn close pre post fuel rest
    else c :: subSpanF opn close pre post fuel rest

def subSpan (opn close pre post : List Char) (s : List Char) : List Char :=
  subSpanF opn close pre post s.length s

/-- One `re.sub` pass for a header pattern `marker (.*?)(\n|$)` with
replacement `<b>\1</b>\n` (lines 261-262): the lazy group runs to the first
newline (consumed) or to the end of the input. -/
def subHF (marker : List Char) : Nat → List Char → List Char
  | 0, s => s
  | _ + 1, [] => []
  | fuel + 1, c :: rest =>
    if marker.isPrefixOf (c :: rest) then
      ('<' :: 'b' :: '>' :: []) ++
        ((c :: rest).drop marker.length).takeWhile (fun x => x ≠ '\n') ++
        ('<' :: '/' :: 'b' :: '>' :: '\n' :: []) ++
        subHF marker fuel
          ((((c :: rest).drop marker.length).dropWhile (fun x => x ≠ '\n')).drop 1)
    else c :: subHF marker fuel rest

/-- `re.sub(r"## (.*?)(\n|$)", r"<b>\1</b>\n", content)` (line 261). -/
def subH2 (s : List Char) : List Char := subHF ('#' :: '#' :: ' ' :: []) s.length s

/-- `re.sub(r"# (.*?)(\n|$)", r"<b>\1</b>\n", content)` (line 262). -/
def subH1 (s : List Char) : List Char := subHF ('#' :: ' ' :: []) s.length s

/-- `re.sub(r"\*\*(.*?)\*\*", r"<b>\1</b>", content)` (line 265). -/
def subBoldDouble (s : List Char) : List Char :=
  subSpan ('*' :: '*' :: []) ('*' :: '*' :: [])
    ('<' :: 'b' :: '>' :: []) ('<' :: '/' :: 'b' :: '>' :: []) s

/-- `re.sub(r"\*(.*?)\*", r"<b>\1</b>", content)` (line 266). -/
def subBoldSingle (s : List Char) : List Char :=
  subSpan ('*' :: []) ('*' :: [])
    ('<' :: 'b' :: '>' :: []) ('<' :: '/' :: 'b' :: '>' :: []) s

/-- `re.sub(r"_(.*?)_", r"<i>\1</i>", content)` (line 269). -/
def subItalic (s : List Char) : List Char :=
  subSpan ('_' :: []) ('_' :: [])
    ('<' :: 'i' :: '>' :: []) ('<' :: '/' :: 'i' :: '>' :: []) s

/-- Matching of `(.*?)\]\((.*?)\)` after an opening bracket, with regex
backtracking: the lazy text group stops at the first `](` from which a lazy
url group can reach a `)`; otherwise it extends past that `](`. -/
def linkScan : List Char → Option (List Char × List Char × List Char)
  | [] => none
  | c :: rest =>
    if (']' :: '(' :: []).isPrefixOf (c :: rest) then
      match findCloseLazy (')' :: []) ((c :: rest).drop 2) with
      | some (u, r) => some ([], u, r)
      | none =>
        if c = '\n' then none
        else
          match linkScan rest with
          | none => none
          | some (t, u, r) => some (c :: t, u, r)
    else
      if c = '\n' then none
      else
        match linkScan rest with
        | none => none
        | some (t, u, r) => some (c :: t, u, r)

/-- `re.sub(r"\[(.*?)\]\((.*?)\)", r'<a href="\2">\1</a>', content)`
(line 272), with the same fuel scheme as `subSpanF`. -/
def subLinksF : Nat → List Char → List Char
  | 0, s => s
  | _ + 1, [] => []
  | fuel + 1, c :: rest =>
    if c = '[' then
      match linkScan rest with
      | some (t, u, r) =>
        ('<' :: 'a' :: ' ' :: 'h' :: 'r' :: 'e' :: 'f' :: '=' :: '"' :: []) ++ u ++
          ('"' :: '>' :: []) ++ t ++ ('<' :: '/' :: 'a' :: '>' :: []) ++ subLinksF fuel r
      | none => c :: subLinksF fuel rest
    else c :: subLinksF fuel rest

def subLinks (s : List Char) : List Char := subLinksF s.length s

/-- The markdown-to-HTML translation chain of `send_to_telegram`
(lines 261-272), in source order: headers, double- and single-asterisk bold,
italic, links. -/
def translate (content : List Char) : List Char :=
  subLinks (subItalic (subBoldSingle (subBoldDouble (subH1 (subH2 content)))))

theorem findCloseLazy_exact (u r : List Char) (hu1 : ')' ∉ u) (hu2 : '\n' ∉ u) :
    findCloseLazy (')' :: []) (u ++ ')' :: r) = some (u, r) := by
  induction u with
  | nil => simp [findCloseLazy, List.isPrefixOf]
  | cons c cs ih =>
    have hc1 : ¬ c = ')' := fun h => hu1 (h ▸ List.mem_cons_self c cs)
    have hc2 : ¬ c = '\n' := fun h => hu2 (h ▸ List.mem_cons_self c cs)
    have hcs1 : ')' ∉ cs := fun h => hu1 (List.mem_cons_of_mem c h)
    have hcs2 : '\n' ∉ cs := fun h => hu2 (List.mem_cons_of_mem c h)
    rw [List.cons_append, findCloseLazy]
    rw [if_neg (by simp [List.isPrefixOf]; exact fun h => hc1 h.symm)]
    rw [if_neg hc2, ih hcs1 hcs2]

theorem linkScan_exact (t u r : List Char)
    (ht1 : ']' ∉ t) (ht2 : '\n' ∉ t) (hu1 : ')' ∉ u) (hu2 : '\n' ∉ u) :
    linkScan (t ++ ']' :: '(' :: (u ++ ')' :: r)) = some (t, u, r) := by
  induction t with
  | nil =>
    rw [List.nil_append, linkScan]
    rw [if_pos (by simp [List.isPrefixOf])]
    simp only [List.drop_succ_cons, List.drop_zero]
    rw [findCloseLazy_exact u r hu1 hu2]
  | cons c cs ih =>
    have hc1 : ¬ c = ']' := fun h => ht1 (h ▸ List.mem_cons_self c cs)
    have hc2 : ¬ c = '\n' := fun h => ht2 (h ▸ List.mem_cons_self c cs)
    have hcs1 : ']' ∉ cs := fun h => ht1 (List.mem_cons_of_mem c h)
    have hcs2 : '\n' ∉ cs := fun h => ht2 (List.mem_cons_of_mem c h)
    rw [List.cons_append, linkScan]
    rw [if_neg (by simp [List.isPrefixOf]; exact fun h => (hc1 h.symm).elim)]
    rw [if_neg hc2, ih hcs1 hcs2]

theorem subLinksF_nil (fuel : Nat) : subLinksF fuel [] = [] := by
  cases fuel <;> rfl

/-- C4 (counterexample): the url is not preserved verbatim: the italic
substitution (line 269) runs before the link substitution (line 272), so the
underscores of the url in `"[t](a_b_c)"` are consumed into italic markup and
the url `"a_b_c"` does not appear in the rendered output. -/
theorem claim4_cex :
    containsSub ('a' :: '_' :: 'b' :: '_' :: 'c' :: [])
      (translate ('[' :: 't' :: ']' :: '(' :: 'a' :: '_' :: 'b' :: '_' :: 'c' :: ')' :: [])) =
      false := by
  decide

/-- C4 (amended): the link substitution itself converts `[text](url)` to
`<a href="url">text</a>` preserving the text and url it is given verbatim;
but because the italic rule runs earlier in the chain, underscore pairs
inside a url (or inside bold content) have already been consumed into italic
tags by the time the link rule runs, so a url containing underscores does
not appear unchanged in the final output: `"[t](a_b_c)"` renders as
`<a href="a<i>b</i>c">t</a>`. -/
theorem claim4_link_rule (t u : List Char)
    (ht1 : ']' ∉ t) (ht2 : '\n' ∉ t) (hu1 : ')' ∉ u) (hu2 : '\n' ∉ u) :
    subLinks ('[' :: (t ++ ']' :: '(' :: (u ++ ')' :: []))) =
      ('<' :: 'a' :: ' ' :: 'h' :: 'r' :: 'e' :: 'f' :: '=' :: '"' :: []) ++ u ++
        ('"' :: '>' :: []) ++ t ++ ('<' :: '/' :: 'a' :: '>' :: []) ∧
    translate ('[' :: 't' :: ']' :: '(' :: 'a' :: '_' :: 'b' :: '_' :: 'c' :: ')' :: []) =
      ('<' :: 'a' :: ' ' :: 'h' :: 'r' :: 'e' :: 'f' :: '=' :: '"' :: 'a' :: '<' :: 'i' :: '>' ::
        'b' :: '<' :: '/' :: 'i' :: '>' :: 'c' :: '"' :: '>' :: 't' :: '<' :: '/' :: 'a' :: '>' :: []) := by
  constructor
  · unfold subLinks
    rw [List.length_cons, subLinksF, if_pos rfl, linkScan_exact t u [] ht1 ht2 hu1 hu2]
    simp [subLinksF_nil]
  · decide

/-- C4 (witness): concrete instance of the link rule preserving a
(well-formed, underscore-free) text and url verbatim. -/
theorem claim4_witness :
    subLinks ('[' :: (('t' :: 'x' :: []) ++ ']' :: '(' ::
        (('a' :: '-' :: 'b' :: []) ++ ')' :: []))) =
      ('<' :: 'a' :: ' ' :: 'h' :: 'r' :: 'e' :: 'f' :: '=' :: '"' :: []) ++
        ('a' :: '-' :: 'b' :: []) ++ ('"' :: '>' :: []) ++ ('t' :: 'x' :: []) ++
        ('<' :: '/' :: 'a' :: '>' :: []) ∧
    translate ('[' :: 't' :: ']' :: '(' :: 'a' :: '_' :: 'b' :: '_' :: 'c' :: ')' :: []) =
      ('<' :: 'a' :: ' ' :: 'h' :: 'r' :: 'e' :: 'f' :: '=' :: '"' :: 'a' :: '<' :: 'i' :: '>' ::
        'b' :: '<' :: '/' :: 'i' :: '>' :: 'c' :: '"' :: '>' :: 't' :: '<' :: '/' :: 'a' :: '>' :: []) :=
  claim4_link_rule ('t' :: 'x' :: []) ('a' :: '-' :: 'b' :: [])
    (by decide) (by decide) (by decide) (by decide)

/-- C5 (counterexample): the stray `**` of `"**unterminated"` is not left as
literal text: the single-asterisk rule (line 266) consumes it as an empty
bold span, so the output contains no `**`. -/
theorem claim5_cex :
    containsSub ('*' :: '*' :: [])
      (translate ('*' :: '*' :: 'u' :: 'n' :: 't' :: 'e' :: 'r' :: 'm' :: 'i' :: 'n' :: 'a' ::
        't' :: 'e' :: 'd' :: [])) = false := by
  decide

/-- C5 (amended): translating the malformed input `"**unterminated"` does
not raise (the translation is a total function) and returns
`"<b></b>unterminated"`: the text `"unterminated"` is passed through
literally, while the stray `**` is consumed by the single-asterisk bold rule
into an empty bold span rather than kept as literal marker text. -/
theorem claim5_passthrough :
    translate ('*' :: '*' :: 'u' :: 'n' :: 't' :: 'e' :: 'r' :: 'm' :: 'i' :: 'n' :: 'a' ::
        't' :: 'e' :: 'd' :: []) =
      ('<' :: 'b' :: '>' :: '<' :: '/' :: 'b' :: '>' :: 'u' :: 'n' :: 't' :: 'e' :: 'r' ::
        'm' :: 'i' :: 'n' :: 'a' :: 't' :: 'e' :: 'd' :: []) ∧
    containsSub ('u' :: 'n' :: 't' :: 'e' :: 'r' :: 'm' :: 'i' :: 'n' :: 'a' :: 't' :: 'e' :: 'd' :: [])
      (translate ('*' :: '*' :: 'u' :: 'n' :: 't' :: 'e' :: 'r' :: 'm' :: 'i' :: 'n' :: 'a' ::
        't' :: 'e' :: 'd' :: [])) = true := by
  exact ⟨by decide, by decide⟩
